import Mathlib

/-!
Shallow embedding of the EOS prior/posterior statistics core, translated from
`src/eos/statistics/log-prior.cc` and `src/eos/statistics/log-posterior.cc`.

Doubles are modelled as real numbers (`ℝ`); the IEEE value `-inf` returned by
`priors::Scale::operator()` is modelled by `⊥ : EReal`.  External collaborators
(the GSL cumulative-distribution routines, the likelihood, the named-parameter
store) enter as explicit function parameters or structure fields, exactly at
the call sites where the source invokes them.
-/

namespace EosSpec

/-- `ParameterDescription` (declared in the headers, used throughout both
source files): one named parameter together with its admissible range and the
nuisance flag.  The live parameter handle is identified by its name; the
current parameter values live in a separate store `String → ℝ`. -/
structure ParamDesc where
  name : String
  min : ℝ
  max : ℝ
  nuisance : Bool

instance : Inhabited ParamDesc := ⟨⟨"", 0, 0, false⟩⟩

/-! ### priors::Scale (log-prior.cc, lines 270–341) -/

/-- `priors::Scale`: member data `_mu_0`, `_lambda`, `_min`, `_max`,
`_ln_lambda` as initialised by the constructor `Scale::Scale`
(log-prior.cc lines 287–299). -/
structure Scale where
  mu_0 : ℝ
  lambda : ℝ
  min : ℝ
  max : ℝ
  ln_lambda : ℝ

/-- The constructor `Scale::Scale`: `_min(mu_0 / lambda)`, `_max(mu_0 * lambda)`,
`_ln_lambda(std::log(lambda))`. -/
noncomputable def Scale.make (mu_0 lambda : ℝ) : Scale :=
  ⟨mu_0, lambda, mu_0 / lambda, mu_0 * lambda, Real.log lambda⟩

/-- `priors::Scale::operator()` (log-prior.cc lines 313–322): reads the bound
parameter's current value `x`; returns `-inf` when `x < _min` or `_max < x`,
and `1.0 / (2.0 * _ln_lambda * x)` otherwise. -/
noncomputable def Scale.evaluate (s : Scale) (x : ℝ) : EReal :=
  if x < s.min ∨ s.max < x then ⊥
  else ((1 / (2 * s.ln_lambda * x) : ℝ) : EReal)

/-! ### priors::CurtailedGauss (log-prior.cc, lines 146–265) -/

/-- `priors::CurtailedGauss` construction data: the range, the three knee
points, and the Gaussian CDF `gsl_cdf_gaussian_P(x, sigma)` supplied by GSL
(an external collaborator, hence a function field). -/
structure CurtailedGauss where
  range_min : ℝ
  range_max : ℝ
  lower : ℝ
  central : ℝ
  upper : ℝ
  gaussP : ℝ → ℝ → ℝ

/-- `_sigma_lower(central - lower)`. -/
def CurtailedGauss.sigma_lower (g : CurtailedGauss) : ℝ := g.central - g.lower

/-- `_sigma_upper(upper - central)`. -/
def CurtailedGauss.sigma_upper (g : CurtailedGauss) : ℝ := g.upper - g.central

/-- `_c_a`, the right-half normalisation from the constructor initialiser list
(log-prior.cc lines 188–189). -/
noncomputable def CurtailedGauss.c_a (g : CurtailedGauss) : ℝ :=
  1 / ((g.sigma_lower / g.sigma_upper) * (0.5 - g.gaussP (g.range_min - g.central) g.sigma_lower)
        + g.gaussP (g.range_max - g.central) g.sigma_upper - 0.5)

/-- `_c_b(_sigma_lower / _sigma_upper * _c_a)` (line 190). -/
noncomputable def CurtailedGauss.c_b (g : CurtailedGauss) : ℝ :=
  g.sigma_lower / g.sigma_upper * g.c_a

/-- `_norm_lower(std::log(_c_b / std::sqrt(2 * M_PI) / _sigma_lower))` (line 192). -/
noncomputable def CurtailedGauss.norm_lower (g : CurtailedGauss) : ℝ :=
  Real.log (g.c_b / Real.sqrt (2 * Real.pi) / g.sigma_lower)

/-- `_norm_upper(std::log(_c_a / std::sqrt(2 * M_PI) / _sigma_upper))` (line 193). -/
noncomputable def CurtailedGauss.norm_upper (g : CurtailedGauss) : ℝ :=
  Real.log (g.c_a / Real.sqrt (2 * Real.pi) / g.sigma_upper)

/-- `priors::CurtailedGauss::operator()` (log-prior.cc lines 223–241): selects
the lower branch when the current value is `< _central`, the upper branch
otherwise, returning `norm - 0.5 * power_of<2>((x - _central) / sigma)`. -/
noncomputable def CurtailedGauss.evaluate (g : CurtailedGauss) (x : ℝ) : ℝ :=
  if x < g.central then g.norm_lower - 0.5 * ((x - g.central) / g.sigma_lower) ^ 2
  else g.norm_upper - 0.5 * ((x - g.central) / g.sigma_upper) ^ 2

/-! ### Claims C3 and C5 -/

/-- C3: for a `Scale` prior constructed with `mu_0 > 0` and `lambda > 1`,
`evaluate()` returns `1/(2·ln(lambda)·x)` whenever the bound parameter's value
`x` lies within `[mu_0/lambda, mu_0·lambda]`, and negative infinity whenever
`x` lies outside that range. -/
theorem scale_evaluate_spec (mu_0 lambda x : ℝ) (_hmu : 0 < mu_0) (_hlam : 1 < lambda) :
    ((mu_0 / lambda ≤ x ∧ x ≤ mu_0 * lambda) →
      (Scale.make mu_0 lambda).evaluate x = ((1 / (2 * Real.log lambda * x) : ℝ) : EReal)) ∧
    ((x < mu_0 / lambda ∨ mu_0 * lambda < x) →
      (Scale.make mu_0 lambda).evaluate x = ⊥) := by
  constructor
  · rintro ⟨h1, h2⟩
    have hcond : ¬(x < (Scale.make mu_0 lambda).min ∨ (Scale.make mu_0 lambda).max < x) := by
      simp only [Scale.make]
      push_neg
      exact ⟨h1, h2⟩
    rw [Scale.evaluate, if_neg hcond]
    rfl
  · intro h
    have hcond : x < (Scale.make mu_0 lambda).min ∨ (Scale.make mu_0 lambda).max < x := by
      simpa [Scale.make] using h
    rw [Scale.evaluate, if_pos hcond]

/-- C3 witness: `mu_0 = 1.0`, `lambda = 2.0` gives the implied range
`[0.5, 2.0]`; `evaluate` at `0.1` is `-inf`, and at `1.0` it is
`1/(2·ln 2·1.0)`. -/
theorem scale_evaluate_witness :
    (Scale.make 1 2).min = 0.5 ∧ (Scale.make 1 2).max = 2 ∧
    (Scale.make 1 2).evaluate 0.1 = ⊥ ∧
    (Scale.make 1 2).evaluate 1 = ((1 / (2 * Real.log 2 * 1) : ℝ) : EReal) := by
  refine ⟨by norm_num [Scale.make], by norm_num [Scale.make], ?_, ?_⟩
  · exact (scale_evaluate_spec 1 2 0.1 (by norm_num) (by norm_num)).2 (by norm_num)
  · exact (scale_evaluate_spec 1 2 1 (by norm_num) (by norm_num)).1 (by norm_num)

/-- C5: for a valid `CurtailedGauss` prior (`min < max`, `lower < central < upper`)
the two branch values of `evaluate()` agree at `x = central`:
`norm_lower - 0.5·((x-central)/sigma_lower)²` equals
`norm_upper - 0.5·((x-central)/sigma_upper)²` there, because
`c_b = (sigma_lower/sigma_upper)·c_a` makes
`log(c_b/(√(2π)·sigma_lower)) = log(c_a/(√(2π)·sigma_upper))`. -/
theorem curtailed_gauss_continuous_at_central (g : CurtailedGauss)
    (_hrange : g.range_min < g.range_max)
    (h1 : g.lower < g.central) (h2 : g.central < g.upper) :
    g.c_b = g.sigma_lower / g.sigma_upper * g.c_a ∧
    g.norm_lower - 0.5 * ((g.central - g.central) / g.sigma_lower) ^ 2
      = g.norm_upper - 0.5 * ((g.central - g.central) / g.sigma_upper) ^ 2 := by
  refine ⟨rfl, ?_⟩
  have hσl : g.sigma_lower ≠ 0 := by
    have : 0 < g.sigma_lower := by simp only [CurtailedGauss.sigma_lower]; linarith
    exact ne_of_gt this
  have hσu : g.sigma_upper ≠ 0 := by
    have : 0 < g.sigma_upper := by simp only [CurtailedGauss.sigma_upper]; linarith
    exact ne_of_gt this
  have hsqrt : Real.sqrt (2 * Real.pi) ≠ 0 := by
    have : 0 < Real.sqrt (2 * Real.pi) :=
      Real.sqrt_pos.mpr (by positivity)
    exact ne_of_gt this
  have harg : g.c_b / Real.sqrt (2 * Real.pi) / g.sigma_lower
      = g.c_a / Real.sqrt (2 * Real.pi) / g.sigma_upper := by
    simp only [CurtailedGauss.c_b]
    field_simp
    ring
  simp only [sub_self, zero_div, ne_eq, OfNat.ofNat_ne_zero, not_false_eq_true,
    zero_pow, mul_zero, sub_zero, CurtailedGauss.norm_lower, CurtailedGauss.norm_upper, harg]

/-- A concrete `CurtailedGauss` instance for the C5 witness: range `[-10, 10]`,
knees `1 < 2 < 4`, with some Gaussian-CDF stand-in. -/
noncomputable def gaussEx : CurtailedGauss := ⟨-10, 10, 1, 2, 4, fun _ _ => 0.4⟩

/-- C5 witness: the two branch values of `gaussEx.evaluate` agree at the
central value `2`. -/
theorem curtailed_gauss_continuous_witness :
    gaussEx.c_b = gaussEx.sigma_lower / gaussEx.sigma_upper * gaussEx.c_a ∧
    gaussEx.norm_lower - 0.5 * ((gaussEx.central - gaussEx.central) / gaussEx.sigma_lower) ^ 2
      = gaussEx.norm_upper - 0.5 * ((gaussEx.central - gaussEx.central) / gaussEx.sigma_upper) ^ 2 :=
  curtailed_gauss_continuous_at_central gaussEx
    (by norm_num [gaussEx]) (by norm_num [gaussEx]) (by norm_num [gaussEx])

/-! ### The posterior registry (log-posterior.cc)

`LogPosterior::add` only reads a prior through its description iterator
(`begin()`/`end()`), its `informative()` flag and its `clone()`; the variance
accessor is consulted by `proposal_covariance`.  A `Prior` is therefore
embedded as exactly that interface data.  `clone(parameters)` re-binds the
parameter handles to another store but reproduces the same contributed
descriptions and flags, so it is the identity on this data. -/

/-- The `LogPrior` interface data used by `LogPosterior`: the contributed
`ParameterDescription`s (one for univariate kinds), the `informative()` flag,
and the `variance()` accessor.  `variance()` is declared in `log-prior.hh`,
which is not part of `src/`; it is Modelled from the spec: "obtained by
calling the underlying prior's variance accessor". -/
structure Prior where
  descs : List ParamDesc
  informative : Bool
  variance : ℝ

/-- `LogPrior::clone(parameters)`: re-resolves the parameter handles against a
different store; contributed descriptions, informativeness and variance are
reproduced unchanged. -/
def Prior.clone (p : Prior) : Prior := p

/-- The names contributed by a description list. -/
def namesOf (ds : List ParamDesc) : List String := ds.map fun d => d.name

/-- Overwriting a description's nuisance flag (`d->nuisance = nuisance` inside
`LogPosterior::add`). -/
def withNuisance (nu : Bool) (d : ParamDesc) : ParamDesc := { d with nuisance := nu }

/-- `LogPosterior` registry state: `_parameter_descriptions`,
`_parameter_names` (a `std::set<std::string>`), `_priors` and
`_informative_priors`.  The likelihood and the parameter store are external
collaborators and enter only through the operations that use them. -/
structure LogPosterior where
  parameter_descriptions : List ParamDesc
  parameter_names : Finset String
  priors : List Prior
  informative_priors : ℕ

/-- `LogPosterior::LogPosterior` (log-posterior.cc lines 41–46): empty
registry, `_informative_priors(0)`. -/
def LogPosterior.empty : LogPosterior := ⟨[], ∅, [], 0⟩

/-- The parameter loop inside `LogPosterior::add` (log-posterior.cc lines
61–69): for each description `d` of the prior, try to insert `d`'s name into
`_parameter_names`; on failure return `false` at once (keeping all state
mutated so far), otherwise overwrite `d`'s nuisance flag and append the
description. -/
def LogPosterior.addDescs : LogPosterior → Bool → List ParamDesc → LogPosterior × Bool
  | lp, _, [] => (lp, true)
  | lp, nu, d :: ds =>
    if d.name ∈ lp.parameter_names then (lp, false)
    else LogPosterior.addDescs
      { lp with
          parameter_names := insert d.name lp.parameter_names,
          parameter_descriptions := lp.parameter_descriptions ++ [withNuisance nu d] }
      nu ds

/-- `LogPosterior::add` (log-posterior.cc lines 52–75): clone the prior
against the posterior's own store, increment `_informative_priors` by
`1 ? prior->informative() : 0` (i.e. by one when the prior is informative)
before the duplicate-name check, then run the description loop; only on full
success push the clone onto `_priors` and return `true`. -/
def LogPosterior.add (lp : LogPosterior) (prior : Prior) (nuisance : Bool) : LogPosterior × Bool :=
  let lp1 : LogPosterior :=
    { lp with informative_priors := lp.informative_priors + (if prior.informative then 1 else 0) }
  let r := LogPosterior.addDescs lp1 nuisance prior.descs
  if r.2 then ({ r.1 with priors := r.1.priors ++ [prior.clone] }, true) else (r.1, false)

/-- `addDescs` never touches `_priors`. -/
theorem addDescs_priors (ds : List ParamDesc) (lp : LogPosterior) (nu : Bool) :
    ((lp.addDescs nu ds).1).priors = lp.priors := by
  induction ds generalizing lp with
  | nil => rfl
  | cons d ds ih =>
    rw [LogPosterior.addDescs]
    by_cases h : d.name ∈ lp.parameter_names
    · rw [if_pos h]
    · rw [if_neg h]
      exact ih _

/-- `addDescs` never touches `_informative_priors`. -/
theorem addDescs_informative (ds : List ParamDesc) (lp : LogPosterior) (nu : Bool) :
    ((lp.addDescs nu ds).1).informative_priors = lp.informative_priors := by
  induction ds generalizing lp with
  | nil => rfl
  | cons d ds ih =>
    rw [LogPosterior.addDescs]
    by_cases h : d.name ∈ lp.parameter_names
    · rw [if_pos h]
    · rw [if_neg h]
      exact ih _

/-- C1: adding a prior whose single contributed parameter name is already
registered returns `false` and leaves the description list, the prior list
and the name set exactly as before the call. -/
theorem add_duplicate_rejected (lp : LogPosterior) (p : Prior) (nu : Bool) (d : ParamDesc)
    (hd : p.descs = [d]) (hmem : d.name ∈ lp.parameter_names) :
    (lp.add p nu).2 = false ∧
    (lp.add p nu).1.parameter_descriptions = lp.parameter_descriptions ∧
    (lp.add p nu).1.priors = lp.priors ∧
    (lp.add p nu).1.parameter_names = lp.parameter_names := by
  simp only [LogPosterior.add, hd, LogPosterior.addDescs]
  rw [if_pos hmem]
  simp

/-- A single-parameter prior on parameter `"x"`, for the C1/C2 witnesses. -/
def priorX1 : Prior := ⟨[⟨"x", 0, 1, false⟩], true, 1⟩

/-- A second single-parameter prior also on parameter `"x"`. -/
def priorX2 : Prior := ⟨[⟨"x", -1, 4, false⟩], true, 2⟩

/-- C1 witness: after adding `priorX1` (parameter `"x"`) to an empty
posterior, adding `priorX2` (also parameter `"x"`) returns `false` and leaves
the description list, the prior list and the name set unchanged, with exactly
one description, for `"x"`. -/
theorem add_duplicate_rejected_witness :
    (((LogPosterior.empty.add priorX1 false).1).add priorX2 false).2 = false ∧
    (((LogPosterior.empty.add priorX1 false).1).add priorX2 false).1.parameter_descriptions
      = ((LogPosterior.empty.add priorX1 false).1).parameter_descriptions ∧
    (((LogPosterior.empty.add priorX1 false).1).add priorX2 false).1.priors
      = ((LogPosterior.empty.add priorX1 false).1).priors ∧
    (((LogPosterior.empty.add priorX1 false).1).add priorX2 false).1.parameter_names
      = ((LogPosterior.empty.add priorX1 false).1).parameter_names ∧
    namesOf ((LogPosterior.empty.add priorX1 false).1).parameter_descriptions = ["x"] := by
  have h := add_duplicate_rejected ((LogPosterior.empty.add priorX1 false).1) priorX2 false
    ⟨"x", -1, 4, false⟩ rfl (by decide)
  exact ⟨h.1, h.2.1, h.2.2.1, h.2.2.2, by decide⟩

/-- C2: `_informative_priors` is incremented before the duplicate-name
rejection check, so even a rejected `add` (returning `false`) of an
informative prior leaves `informative_priors()` one larger than before. -/
theorem add_rejected_still_counts_informative (lp : LogPosterior) (p : Prior) (nu : Bool)
    (hinf : p.informative = true) (_hfail : (lp.add p nu).2 = false) :
    (lp.add p nu).1.informative_priors = lp.informative_priors + 1 := by
  simp only [LogPosterior.add, hinf, if_true]
  by_cases h : (LogPosterior.addDescs
      { lp with informative_priors := lp.informative_priors + 1 } nu p.descs).2
  · rw [if_pos h]
    exact addDescs_informative _ _ _
  · rw [if_neg h]
    exact addDescs_informative _ _ _

/-- C2 witness: the rejected duplicate add of the informative `priorX2` still
bumps the informative-prior counter from 1 to 2. -/
theorem add_rejected_still_counts_informative_witness :
    (((LogPosterior.empty.add priorX1 false).1).add priorX2 false).1.informative_priors = 2 := by
  have h := add_rejected_still_counts_informative ((LogPosterior.empty.add priorX1 false).1)
    priorX2 false rfl (by decide)
  rw [h]
  decide

/-! ### Success characterisation of `add`, and `private_clone` (claim C4) -/

/-- `namesOf` distributes over list append. -/
theorem namesOf_append (a b : List ParamDesc) : namesOf (a ++ b) = namesOf a ++ namesOf b :=
  List.map_append _ _ _

/-- Overwriting the nuisance flag does not change the parameter names. -/
theorem namesOf_map_withNuisance (nu : Bool) (ds : List ParamDesc) :
    namesOf (ds.map (withNuisance nu)) = namesOf ds := by
  simp [namesOf, withNuisance, Function.comp]

/-- What a fully successful description loop does: it appends the
nuisance-overwritten descriptions, unions the contributed names into the name
set, and its success certifies that the contributed names were pairwise
distinct and all previously unregistered. -/
theorem addDescs_spec (ds : List ParamDesc) (lp : LogPosterior) (nu : Bool)
    (h : (lp.addDescs nu ds).2 = true) :
    (lp.addDescs nu ds).1.parameter_descriptions
        = lp.parameter_descriptions ++ ds.map (withNuisance nu) ∧
    (lp.addDescs nu ds).1.parameter_names
        = lp.parameter_names ∪ (namesOf ds).toFinset ∧
    (namesOf ds).Nodup ∧
    (∀ n ∈ namesOf ds, n ∉ lp.parameter_names) := by
  induction ds generalizing lp with
  | nil => simp [LogPosterior.addDescs, namesOf]
  | cons d ds ih =>
    rw [LogPosterior.addDescs] at h ⊢
    by_cases hm : d.name ∈ lp.parameter_names
    · rw [if_pos hm] at h
      exact absurd h (by simp)
    · rw [if_neg hm] at h ⊢
      obtain ⟨h1, h2, h3, h4⟩ := ih _ h
      refine ⟨?_, ?_, ?_, ?_⟩
      · rw [h1]
        simp [List.append_assoc]
      · rw [h2]
        simp only [namesOf, List.map_cons, List.toFinset_cons, Finset.insert_union,
          Finset.union_insert]
      · have hd : d.name ∉ namesOf ds := fun hmem =>
          (h4 d.name hmem) (Finset.mem_insert_self _ _)
        show (namesOf (d :: ds)).Nodup
        rw [show namesOf (d :: ds) = d.name :: namesOf ds from rfl]
        exact List.nodup_cons.mpr ⟨hd, h3⟩
      · intro n hn
        simp only [namesOf, List.map_cons, List.mem_cons] at hn
        rcases hn with rfl | hn
        · exact hm
        · have := h4 n hn
          intro hcontra
          exact this (Finset.mem_insert_of_mem hcontra)

/-- Conversely, the description loop succeeds whenever the contributed names
are pairwise distinct and unregistered. -/
theorem addDescs_ok_of (ds : List ParamDesc) (lp : LogPosterior) (nu : Bool)
    (hnodup : (namesOf ds).Nodup) (hfresh : ∀ n ∈ namesOf ds, n ∉ lp.parameter_names) :
    (lp.addDescs nu ds).2 = true := by
  induction ds generalizing lp with
  | nil => rfl
  | cons d ds ih =>
    have hcons : namesOf (d :: ds) = d.name :: namesOf ds := rfl
    rw [hcons] at hnodup hfresh
    obtain ⟨hd, hnodup'⟩ := List.nodup_cons.mp hnodup
    rw [LogPosterior.addDescs]
    have hm : d.name ∉ lp.parameter_names := hfresh d.name (List.mem_cons_self _ _)
    rw [if_neg hm]
    refine ih _ hnodup' ?_
    intro n hn hcontra
    rcases Finset.mem_insert.mp hcontra with hEq | hmem
    · exact hd (hEq ▸ hn)
    · exact hfresh n (List.mem_cons_of_mem _ hn) hmem

/-- Full success characterisation of `LogPosterior::add`. -/
theorem add_spec (lp : LogPosterior) (p : Prior) (nu : Bool)
    (h : (lp.add p nu).2 = true) :
    (lp.add p nu).1.parameter_descriptions
        = lp.parameter_descriptions ++ p.descs.map (withNuisance nu) ∧
    (lp.add p nu).1.parameter_names = lp.parameter_names ∪ (namesOf p.descs).toFinset ∧
    (lp.add p nu).1.priors = lp.priors ++ [p] ∧
    (lp.add p nu).1.informative_priors
        = lp.informative_priors + (if p.informative then 1 else 0) ∧
    (namesOf p.descs).Nodup ∧
    (∀ n ∈ namesOf p.descs, n ∉ lp.parameter_names) := by
  simp only [LogPosterior.add] at h ⊢
  set lp1 : LogPosterior :=
    { lp with informative_priors := lp.informative_priors + (if p.informative then 1 else 0) }
    with hlp1
  by_cases hok : (lp1.addDescs nu p.descs).2 = true
  · obtain ⟨h1, h2, h3, h4⟩ := addDescs_spec p.descs lp1 nu hok
    rw [if_pos hok]
    refine ⟨by simpa [hlp1] using h1, by simpa [hlp1] using h2, ?_, ?_, h3,
      by simpa [hlp1] using h4⟩
    · simp [addDescs_priors, hlp1, Prior.clone]
    · simp [addDescs_informative, hlp1]
  · rw [if_neg (by simpa using hok)] at h
    exact absurd h (by simp)

/-- `add` succeeds whenever the prior's contributed names are pairwise
distinct and none is registered yet. -/
theorem add_ok_of (lp : LogPosterior) (p : Prior) (nu : Bool)
    (hnodup : (namesOf p.descs).Nodup)
    (hfresh : ∀ n ∈ namesOf p.descs, n ∉ lp.parameter_names) :
    (lp.add p nu).2 = true := by
  simp only [LogPosterior.add]
  have hok := addDescs_ok_of p.descs
    { lp with informative_priors := lp.informative_priors + (if p.informative then 1 else 0) }
    nu hnodup (by simpa using hfresh)
  rw [if_pos hok]

/-- The concatenation, in add-order, of the descriptions contributed by a
prior list (what re-adding every prior clone re-derives). -/
def contributedDescs : List Prior → List ParamDesc
  | [] => []
  | p :: ps => p.descs ++ contributedDescs ps

theorem contributedDescs_append (a b : List Prior) :
    contributedDescs (a ++ b) = contributedDescs a ++ contributedDescs b := by
  induction a with
  | nil => simp [contributedDescs]
  | cons p ps ih => simp [contributedDescs, ih]

/-- The registry invariant maintained by successful `add` calls: description
names are pairwise distinct, the name set is exactly the set of description
names, and the description list's names are the concatenation of the owned
priors' contributed names in add-order. -/
def Inv (lp : LogPosterior) : Prop :=
  (namesOf lp.parameter_descriptions).Nodup ∧
  lp.parameter_names = (namesOf lp.parameter_descriptions).toFinset ∧
  namesOf lp.parameter_descriptions = namesOf (contributedDescs lp.priors)

theorem Inv_empty : Inv LogPosterior.empty := by
  refine ⟨?_, ?_, ?_⟩ <;> simp [LogPosterior.empty, namesOf, contributedDescs]

theorem add_preserves_Inv (lp : LogPosterior) (p : Prior) (nu : Bool)
    (hok : (lp.add p nu).2 = true) (hInv : Inv lp) : Inv (lp.add p nu).1 := by
  obtain ⟨hdesc, hnames, hpriors, _, hnodup, hfresh⟩ := add_spec lp p nu hok
  obtain ⟨inv1, inv2, inv3⟩ := hInv
  refine ⟨?_, ?_, ?_⟩
  · rw [hdesc, namesOf_append, namesOf_map_withNuisance]
    refine List.Nodup.append inv1 hnodup ?_
    intro n hn hn'
    exact hfresh n hn' (inv2 ▸ List.mem_toFinset.mpr hn)
  · rw [hdesc, hnames, inv2, namesOf_append, namesOf_map_withNuisance, List.toFinset_append]
  · rw [hdesc, hpriors, namesOf_append, namesOf_map_withNuisance, contributedDescs_append,
      namesOf_append, inv3]
    simp [contributedDescs]

/-- `LogPosterior::LogPosterior` followed by a sequence of `add(prior,
nuisance)` calls; the second component records whether every `add` returned
`true`. -/
def buildStep (acc : LogPosterior × Bool) (pb : Prior × Bool) : LogPosterior × Bool :=
  ((acc.1.add pb.1 pb.2).1, acc.2 && (acc.1.add pb.1 pb.2).2)

/-- A posterior built by adding the given priors in order. -/
def buildPosterior (ps : List (Prior × Bool)) : LogPosterior × Bool :=
  ps.foldl buildStep (LogPosterior.empty, true)

theorem build_flag_false (ps : List (Prior × Bool)) (lp : LogPosterior) :
    (ps.foldl buildStep (lp, false)).2 = false := by
  induction ps generalizing lp with
  | nil => rfl
  | cons pb ps ih =>
    rw [List.foldl_cons]
    show (ps.foldl buildStep ((lp.add pb.1 pb.2).1, false && (lp.add pb.1 pb.2).2)).2 = false
    rw [Bool.false_and]
    exact ih _

theorem build_inv (ps : List (Prior × Bool)) (lp : LogPosterior) (hInv : Inv lp)
    (h : (ps.foldl buildStep (lp, true)).2 = true) :
    Inv (ps.foldl buildStep (lp, true)).1 := by
  induction ps generalizing lp with
  | nil => exact hInv
  | cons pb ps ih =>
    rw [List.foldl_cons] at h ⊢
    by_cases hok : (lp.add pb.1 pb.2).2 = true
    · have hstep : buildStep (lp, true) pb = ((lp.add pb.1 pb.2).1, true) := by
        simp [buildStep, hok]
      rw [hstep] at h ⊢
      exact ih _ (add_preserves_Inv lp pb.1 pb.2 hok hInv) h
    · have hfalse : (lp.add pb.1 pb.2).2 = false := by
        simpa using hok
      have hstep : buildStep (lp, true) pb = ((lp.add pb.1 pb.2).1, false) := by
        simp [buildStep, hfalse]
      rw [hstep] at h
      exact absurd h (by simp [build_flag_false])

/-- The re-adding loop of `LogPosterior::private_clone` (log-posterior.cc
lines 96–100): `result->add(_prior->clone(result->parameters()))` for every
owned prior, with the `nuisance` argument at its declared default `false`
(the declaration lives in `log-posterior.hh`, outside `src/`; the spec's §3
confirms the clone "re-adds clones of every prior").  The returned flag is
discarded, as in the source. -/
def cloneFold (prs : List Prior) (lp : LogPosterior) : LogPosterior :=
  prs.foldl (fun acc p => (acc.add p.clone false).1) lp

theorem cloneFold_descs (prs : List Prior) (lp : LogPosterior)
    (hnodup : (namesOf (contributedDescs prs)).Nodup)
    (hfresh : ∀ n ∈ namesOf (contributedDescs prs), n ∉ lp.parameter_names) :
    (cloneFold prs lp).parameter_descriptions
      = lp.parameter_descriptions ++ (contributedDescs prs).map (withNuisance false) := by
  induction prs generalizing lp with
  | nil => simp [cloneFold, contributedDescs]
  | cons p prs ih =>
    have hsplit : namesOf (contributedDescs (p :: prs))
        = namesOf p.descs ++ namesOf (contributedDescs prs) := by
      rw [show contributedDescs (p :: prs) = p.descs ++ contributedDescs prs from rfl,
        namesOf_append]
    rw [hsplit] at hnodup hfresh
    have hnodup_p : (namesOf p.descs).Nodup := hnodup.of_append_left
    have hnodup_rest : (namesOf (contributedDescs prs)).Nodup := hnodup.of_append_right
    have hdisj : ∀ n ∈ namesOf p.descs, n ∉ namesOf (contributedDescs prs) := by
      intro n hn
      exact (List.disjoint_of_nodup_append hnodup) hn
    have hok : (lp.add p.clone false).2 = true :=
      add_ok_of lp p.clone false hnodup_p
        (fun n hn => hfresh n (List.mem_append_left _ hn))
    obtain ⟨hdesc, hnames, _, _, _, _⟩ := add_spec lp p.clone false hok
    have hfresh' : ∀ n ∈ namesOf (contributedDescs prs),
        n ∉ ((lp.add p.clone false).1).parameter_names := by
      intro n hn
      rw [hnames]
      intro hcontra
      rcases Finset.mem_union.mp hcontra with hmem | hmem
      · exact hfresh n (List.mem_append_right _ hn) hmem
      · exact hdisj n (List.mem_toFinset.mp hmem) hn
    show (cloneFold prs (lp.add p.clone false).1).parameter_descriptions = _
    rw [ih _ hnodup_rest hfresh', hdesc]
    simp [Prior.clone, contributedDescs, List.append_assoc]

/-- The tuple a description contributes to the persisted schema and to the
clone round-trip comparison. -/
def descTuple (d : ParamDesc) : String × ℝ × ℝ × Bool := (d.name, d.min, d.max, d.nuisance)

/-- The copy loop of `LogPosterior::private_clone` (log-posterior.cc lines
102–109): walk the original's descriptions and the clone's descriptions in
lock-step, copying `min`, `max` and `nuisance` onto the clone's entries.  The
source advances the clone iterator without its own end check; a clone list
shorter than the original would be undefined behaviour in C++ and is mapped
to `[]` here (unreachable for posteriors satisfying the registry invariant). -/
def copyRanges : List ParamDesc → List ParamDesc → List ParamDesc
  | [], js => js
  | _ :: _, [] => []
  | i :: is, j :: js =>
      { j with min := i.min, max := i.max, nuisance := i.nuisance } :: copyRanges is js

theorem copyRanges_tuples (orig cln : List ParamDesc)
    (hnames : namesOf orig = namesOf cln) :
    (copyRanges orig cln).map descTuple = orig.map descTuple := by
  induction orig generalizing cln with
  | nil =>
    have : cln = [] := by simpa [namesOf] using hnames.symm
    simp [this, copyRanges]
  | cons i is ih =>
    cases cln with
    | nil => exact absurd hnames (by simp [namesOf])
    | cons j js =>
      simp only [namesOf, List.map_cons, List.cons.injEq] at hnames
      rw [copyRanges]
      simp only [List.map_cons, ih js (by simpa [namesOf] using hnames.2)]
      simp [descTuple, hnames.1]

/-- `LogPosterior::private_clone` (log-posterior.cc lines 89–112): clone the
likelihood (external), re-add a clone of every owned prior, then copy `min`,
`max`, `nuisance` from the original's descriptions onto the clone's
descriptions in add-order. -/
def LogPosterior.private_clone (lp : LogPosterior) : LogPosterior :=
  let result := cloneFold lp.priors LogPosterior.empty
  { result with
      parameter_descriptions :=
        copyRanges lp.parameter_descriptions result.parameter_descriptions }

/-- C4: for a posterior built by adding priors (every `add` returning
`true`), the clone's `parameter_descriptions()` has identical
`(name, min, max, nuisance)` tuples to the original's, in the same order. -/
theorem clone_roundtrip (ps : List (Prior × Bool)) (h : (buildPosterior ps).2 = true) :
    ((buildPosterior ps).1.private_clone).parameter_descriptions.map descTuple
      = (buildPosterior ps).1.parameter_descriptions.map descTuple := by
  obtain ⟨inv1, inv2, inv3⟩ := build_inv ps LogPosterior.empty Inv_empty h
  have hN : (namesOf (contributedDescs (buildPosterior ps).1.priors)).Nodup := inv3 ▸ inv1
  set cln := cloneFold (buildPosterior ps).1.priors LogPosterior.empty with hcln
  have hdescs : cln.parameter_descriptions
      = LogPosterior.empty.parameter_descriptions
        ++ (contributedDescs (buildPosterior ps).1.priors).map (withNuisance false) :=
    cloneFold_descs (buildPosterior ps).1.priors LogPosterior.empty hN
      (by simp [LogPosterior.empty])
  have hnames : namesOf (buildPosterior ps).1.parameter_descriptions
      = namesOf cln.parameter_descriptions := by
    rw [hdescs]
    simp only [LogPosterior.empty, List.nil_append, namesOf_map_withNuisance]
    exact inv3
  show (copyRanges (buildPosterior ps).1.parameter_descriptions
    cln.parameter_descriptions).map descTuple = _
  exact copyRanges_tuples _ _ hnames

/-- A flat prior on `"a"` with range `[0, 1]` for the C4 witness. -/
def priorFlatA : Prior := ⟨[⟨"a", 0, 1, false⟩], false, 0⟩

/-- A curtailed-Gauss-style prior on `"b"` for the C4 witness. -/
def priorGaussB : Prior := ⟨[⟨"b", -5, 5, false⟩], true, 1⟩

/-- C4 witness: the clone round-trip on the posterior built from
`{Flat("a",[0,1]), CurtailedGauss("b",...)}`. -/
theorem clone_roundtrip_witness :
    List.map descTuple
        (LogPosterior.parameter_descriptions
          (LogPosterior.private_clone
            (buildPosterior [(priorFlatA, false), (priorGaussB, true)]).1))
      = List.map descTuple
          (LogPosterior.parameter_descriptions
            (buildPosterior [(priorFlatA, false), (priorGaussB, true)]).1) :=
  clone_roundtrip [(priorFlatA, false), (priorGaussB, true)] (by decide)

/-! ### Errors, goodness_of_fit and optimize (log-posterior.cc)

The exception classes thrown by log-posterior.cc: `InternalError` (declared in
the utils headers) and the file-local `RangeError` (log-posterior.cc lines
32–39, unused by these operations). -/

inductive EosError where
  | internalError (msg : String)
  | rangeError (msg : String)
  deriving DecidableEq

/-- The out-of-bounds message thrown by `LogPosterior::goodness_of_fit`
(log-posterior.cc lines 307–309); the stringified numeric range and value are
omitted from the model. -/
def oobMsg (d : ParamDesc) : String :=
  "LogPosterior::goodness_of_fit: parameter " ++ d.name ++ " out of bounds"

/-- The dimension-mismatch message of `goodness_of_fit` (lines 287–289),
numeric renderings omitted. -/
def gofDimMsg : String :=
  "LogPosterior::goodness_of_fit: starting point has the wrong dimension"

/-- The parameter-setting loop of `goodness_of_fit` (log-posterior.cc lines
301–312): for each index in order, first check the supplied value against the
description's declared `[min, max]` and throw on violation, then write the
value into the parameter store (`desc.parameter->set(...)`).  The store is
modelled by name, `String → ℝ`; on a throw, the writes already performed are
kept. -/
noncomputable def gofSetParams :
    List ParamDesc → List ℝ → (String → ℝ) → ((String → ℝ) × Option EosError)
  | [], _, s => (s, none)
  | _, [], s => (s, none)
  | d :: ds, v :: vs, s =>
    if v < d.min ∨ d.max < v then (s, some (.internalError (oobMsg d)))
    else gofSetParams ds vs (Function.update s d.name v)

/-- The external inputs consumed by `goodness_of_fit`: the GSL chi-squared
tail functions `gsl_cdf_chisq_Q` / `gsl_cdf_chisq_Qinv`, the likelihood's
`number_of_observations()`, and the simulated p-value
`bootstrap_p_value(...).first`. -/
structure GofEnv where
  chisqQ : ℝ → ℝ → ℝ
  chisqQinv : ℝ → ℝ → ℝ
  n_obs : ℕ
  p_sim : ℝ

/-- The observable outcome of one `goodness_of_fit` call: the parameter store
after the call, the two analytic chi-squared p-values (`none` when the
corresponding degrees-of-freedom guard rejected them; the source then leaves
`p_analytical = 0` and only logs a warning), and the returned pair or the
thrown error. -/
structure GofResult where
  store : String → ℝ
  p_full : Option ℝ
  p_scan : Option ℝ
  ret : Except EosError (ℝ × ℝ)

/-- `LogPosterior::goodness_of_fit` (log-posterior.cc lines 275–428): count
scan (non-nuisance) parameters, check the point's dimension, set the
parameters with per-component range checks, then compute the analytic
chi-squared p-values `gsl_cdf_chisq_Q(chi_squared, dof)` with
`dof = n_obs - n_parameters` and `dof_scan = n_obs - n_scan_parameters`, each
only under a strictly-positive degrees-of-freedom guard, and return
`(sim_result.first, p_analytical)`.  Logging, HDF5 persistence and the
significance-based p-values are side channels and not part of the result. -/
noncomputable def LogPosterior.goodness_of_fit (lp : LogPosterior) (env : GofEnv)
    (parameter_values : List ℝ) (store : String → ℝ) : GofResult :=
  let scan_parameters := (lp.parameter_descriptions.filter fun d => ! d.nuisance).length
  if lp.parameter_descriptions.length ≠ parameter_values.length then
    ⟨store, none, none, .error (.internalError gofDimMsg)⟩
  else
    match gofSetParams lp.parameter_descriptions parameter_values store with
    | (s, some e) => ⟨s, none, none, .error e⟩
    | (s, none) =>
      let dof : ℝ := (env.n_obs : ℝ) - (lp.parameter_descriptions.length : ℝ)
      let chi_squared := env.chisqQinv env.p_sim (env.n_obs : ℝ)
      let p_full : Option ℝ := if 0 < dof then some (env.chisqQ chi_squared dof) else none
      let dof_scan : ℝ := (env.n_obs : ℝ) - (scan_parameters : ℝ)
      let p_scan : Option ℝ := if 0 < dof_scan then some (env.chisqQ chi_squared dof_scan) else none
      ⟨s, p_full, p_scan, .ok (env.p_sim, p_full.getD 0)⟩

/-- The setting loop leaves the store untouched at any name that no
description contributes. -/
theorem gofSetParams_store_frozen (ds : List ParamDesc) (vs : List ℝ) (s : String → ℝ)
    (n : String) (hn : n ∉ namesOf ds) : (gofSetParams ds vs s).1 n = s n := by
  induction ds generalizing vs s with
  | nil => cases vs <;> rfl
  | cons d ds ih =>
    cases vs with
    | nil => rfl
    | cons v vs =>
      rw [show namesOf (d :: ds) = d.name :: namesOf ds from rfl] at hn
      have hne : n ≠ d.name := fun hEq => hn (hEq ▸ List.mem_cons_self _ _)
      have hn' : n ∉ namesOf ds := fun hmem => hn (List.mem_cons_of_mem _ hmem)
      rw [gofSetParams]
      by_cases hb : v < d.min ∨ d.max < v
      · rw [if_pos hb]
      · rw [if_neg hb]
        rw [ih vs _ hn']
        exact Function.update_noteq hne _ _

/-- If some component violates its range, the setting loop throws the
out-of-bounds error of some registered description. -/
theorem gofSetParams_err (ds : List ParamDesc) (vs : List ℝ) (s : String → ℝ)
    (hbad : ∃ i, ∃ hv : i < vs.length, ∃ hd : i < ds.length,
      vs.get ⟨i, hv⟩ < (ds.get ⟨i, hd⟩).min ∨ (ds.get ⟨i, hd⟩).max < vs.get ⟨i, hv⟩) :
    ∃ d ∈ ds, (gofSetParams ds vs s).2 = some (.internalError (oobMsg d)) := by
  induction ds generalizing vs s with
  | nil =>
    obtain ⟨i, _, hd, _⟩ := hbad
    exact absurd hd (Nat.not_lt_zero i)
  | cons d ds ih =>
    cases vs with
    | nil =>
      obtain ⟨i, hv, _, _⟩ := hbad
      exact absurd hv (Nat.not_lt_zero i)
    | cons v vs =>
      by_cases hb : v < d.min ∨ d.max < v
      · refine ⟨d, List.mem_cons_self _ _, ?_⟩
        rw [gofSetParams, if_pos hb]
      · obtain ⟨i, hv, hd, hviol⟩ := hbad
        cases i with
        | zero => exact absurd hviol hb
        | succ j =>
          obtain ⟨d', hmem, heq⟩ := ih vs (Function.update s d.name v)
            ⟨j, Nat.lt_of_succ_lt_succ hv, Nat.lt_of_succ_lt_succ hd, hviol⟩
          refine ⟨d', List.mem_cons_of_mem _ hmem, ?_⟩
          rw [gofSetParams, if_neg hb]
          exact heq

/-- If every component is within range, the setting loop does not throw. -/
theorem gofSetParams_ok (ds : List ParamDesc) (vs : List ℝ) (s : String → ℝ)
    (hgood : ∀ i (hv : i < vs.length) (hd : i < ds.length),
      ¬(vs.get ⟨i, hv⟩ < (ds.get ⟨i, hd⟩).min ∨ (ds.get ⟨i, hd⟩).max < vs.get ⟨i, hv⟩)) :
    (gofSetParams ds vs s).2 = none := by
  induction ds generalizing vs s with
  | nil => cases vs <;> rfl
  | cons d ds ih =>
    cases vs with
    | nil => rfl
    | cons v vs =>
      have hb : ¬(v < d.min ∨ d.max < v) := hgood 0 (Nat.succ_pos _) (Nat.succ_pos _)
      rw [gofSetParams, if_neg hb]
      exact ih vs _ fun i hv hd =>
        hgood (i + 1) (Nat.succ_lt_succ hv) (Nat.succ_lt_succ hd)

/-- When the first violation sits at index `i`, the loop throws that
description's error and has already written the supplied values at positions
`0..i-1` into the store. -/
theorem gofSetParams_first_bad (ds : List ParamDesc) (vs : List ℝ) (s : String → ℝ)
    (i : ℕ) (hi : i < vs.length) (hid : i < ds.length)
    (hnodup : (namesOf ds).Nodup)
    (hok : ∀ j (hj : j < i),
      ¬(vs.get ⟨j, lt_trans hj hi⟩ < (ds.get ⟨j, lt_trans hj hid⟩).min ∨
        (ds.get ⟨j, lt_trans hj hid⟩).max < vs.get ⟨j, lt_trans hj hi⟩))
    (hbad : vs.get ⟨i, hi⟩ < (ds.get ⟨i, hid⟩).min ∨
      (ds.get ⟨i, hid⟩).max < vs.get ⟨i, hi⟩) :
    (gofSetParams ds vs s).2 = some (.internalError (oobMsg (ds.get ⟨i, hid⟩))) ∧
    ∀ j (hj : j < i), (gofSetParams ds vs s).1 ((ds.get ⟨j, lt_trans hj hid⟩).name)
      = vs.get ⟨j, lt_trans hj hi⟩ := by
  induction ds generalizing vs s i with
  | nil => exact absurd hid (Nat.not_lt_zero i)
  | cons d ds ih =>
    cases vs with
    | nil => exact absurd hi (Nat.not_lt_zero i)
    | cons v vs =>
      rw [show namesOf (d :: ds) = d.name :: namesOf ds from rfl] at hnodup
      obtain ⟨hdfresh, hnodup'⟩ := List.nodup_cons.mp hnodup
      cases i with
      | zero =>
        have hbad0 : v < d.min ∨ d.max < v := hbad
        constructor
        · rw [gofSetParams, if_pos hbad0]
          rfl
        · intro j hj
          exact absurd hj (Nat.not_lt_zero j)
      | succ i' =>
        have hb : ¬(v < d.min ∨ d.max < v) := hok 0 (Nat.succ_pos _)
        have hih := ih vs (Function.update s d.name v) i'
          (Nat.lt_of_succ_lt_succ hi) (Nat.lt_of_succ_lt_succ hid) hnodup'
          (fun j hj => hok (j + 1) (Nat.succ_lt_succ hj)) hbad
        constructor
        · rw [gofSetParams, if_neg hb]
          exact hih.1
        · intro j hj
          cases j with
          | zero =>
            rw [gofSetParams, if_neg hb]
            show (gofSetParams ds vs (Function.update s d.name v)).1 d.name = v
            rw [gofSetParams_store_frozen ds vs _ d.name hdfresh]
            exact Function.update_same _ _ _
          | succ j' =>
            rw [gofSetParams, if_neg hb]
            exact hih.2 j' (Nat.lt_of_succ_lt_succ hj)

/-- C7: a dimension-correct parameter point with some component outside its
description's declared `[min, max]` makes `goodness_of_fit` fail: the call
throws the out-of-bounds error of a registered description instead of
returning a p-value pair. -/
theorem gof_out_of_range (lp : LogPosterior) (env : GofEnv) (values : List ℝ)
    (store : String → ℝ)
    (hlen : lp.parameter_descriptions.length = values.length)
    (hbad : ∃ i, ∃ hv : i < values.length, ∃ hd : i < lp.parameter_descriptions.length,
      values.get ⟨i, hv⟩ < (lp.parameter_descriptions.get ⟨i, hd⟩).min ∨
      (lp.parameter_descriptions.get ⟨i, hd⟩).max < values.get ⟨i, hv⟩) :
    ∃ d ∈ lp.parameter_descriptions,
      (lp.goodness_of_fit env values store).ret = .error (.internalError (oobMsg d)) := by
  obtain ⟨d, hmem, herr⟩ := gofSetParams_err lp.parameter_descriptions values store hbad
  refine ⟨d, hmem, ?_⟩
  simp only [LogPosterior.goodness_of_fit]
  rw [if_neg (not_not_intro hlen)]
  rcases hgs : gofSetParams lp.parameter_descriptions values store with ⟨s', r⟩
  rw [hgs] at herr
  simp only at herr
  subst herr
  rfl

/-- Two descriptions with (nuisance) parameter `"x"` and (scan) parameter
`"y"`, for the goodness-of-fit witnesses. -/
def lpGof : LogPosterior :=
  ⟨[⟨"x", 0, 1, true⟩, ⟨"y", -1, 1, false⟩], {"x", "y"}, [priorX1], 1⟩

/-- A goodness-of-fit environment for the witnesses. -/
noncomputable def gofEnvEx : GofEnv := ⟨fun a b => a + b, fun a b => a * b, 0, 0.3⟩

/-- C7 witness: on `lpGof`, the point `[0.5, 7]` (second component above the
declared maximum `1`) makes `goodness_of_fit` return the out-of-bounds
error. -/
theorem gof_out_of_range_witness :
    ∃ d ∈ lpGof.parameter_descriptions,
      (lpGof.goodness_of_fit gofEnvEx [0.5, 7] (fun _ => 0)).ret
        = .error (.internalError (oobMsg d)) := by
  refine gof_out_of_range lpGof gofEnvEx [0.5, 7] (fun _ => 0) (by decide) ?_
  refine ⟨1, by decide, by decide, ?_⟩
  show (7 : ℝ) < -1 ∨ (1 : ℝ) < 7
  norm_num

/-- C10: the range check and the parameter writes are interleaved in one
loop, so when the first out-of-range component sits at index `i`, the call
fails with that description's error while the parameters at positions
`0..i-1` have already been set to the supplied values. -/
theorem gof_not_atomic (lp : LogPosterior) (env : GofEnv) (values : List ℝ)
    (store : String → ℝ)
    (hlen : lp.parameter_descriptions.length = values.length)
    (hnodup : (namesOf lp.parameter_descriptions).Nodup)
    (i : ℕ) (hi : i < values.length) (hid : i < lp.parameter_descriptions.length)
    (hok : ∀ j (hj : j < i),
      ¬(values.get ⟨j, lt_trans hj hi⟩ < (lp.parameter_descriptions.get ⟨j, lt_trans hj hid⟩).min ∨
        (lp.parameter_descriptions.get ⟨j, lt_trans hj hid⟩).max < values.get ⟨j, lt_trans hj hi⟩))
    (hbad : values.get ⟨i, hi⟩ < (lp.parameter_descriptions.get ⟨i, hid⟩).min ∨
      (lp.parameter_descriptions.get ⟨i, hid⟩).max < values.get ⟨i, hi⟩) :
    (lp.goodness_of_fit env values store).ret
      = .error (.internalError (oobMsg (lp.parameter_descriptions.get ⟨i, hid⟩))) ∧
    ∀ j (hj : j < i),
      (lp.goodness_of_fit env values store).store
          ((lp.parameter_descriptions.get ⟨j, lt_trans hj hid⟩).name)
        = values.get ⟨j, lt_trans hj hi⟩ := by
  obtain ⟨herr, hstore⟩ :=
    gofSetParams_first_bad lp.parameter_descriptions values store i hi hid hnodup hok hbad
  have hgof : lp.goodness_of_fit env values store
      = ⟨(gofSetParams lp.parameter_descriptions values store).1, none, none,
          .error (.internalError (oobMsg (lp.parameter_descriptions.get ⟨i, hid⟩)))⟩ := by
    simp only [LogPosterior.goodness_of_fit]
    rw [if_neg (not_not_intro hlen)]
    rcases hgs : gofSetParams lp.parameter_descriptions values store with ⟨s', r⟩
    rw [hgs] at herr
    simp only at herr
    subst herr
    rfl
  rw [hgof]
  exact ⟨rfl, hstore⟩

/-- C10 witness: on `lpGof` with the point `[0.5, 7]`, the first (in-range)
component has already been written to parameter `"x"` when the error about
`"y"` is thrown. -/
theorem gof_not_atomic_witness :
    (lpGof.goodness_of_fit gofEnvEx [0.5, 7] (fun _ => 0)).ret
      = .error (.internalError (oobMsg ⟨"y", -1, 1, false⟩)) ∧
    (lpGof.goodness_of_fit gofEnvEx [0.5, 7] (fun _ => 0)).store "x" = 0.5 := by
  have h := gof_not_atomic lpGof gofEnvEx [0.5, 7] (fun _ => 0) (by decide) (by decide)
    1 (by decide) (by decide)
    (by
      intro j hj
      have hj0 : j = 0 := Nat.lt_one_iff.mp hj
      subst hj0
      show ¬((0.5 : ℝ) < 0 ∨ (1 : ℝ) < 0.5)
      norm_num)
    (by
      show (7 : ℝ) < -1 ∨ (1 : ℝ) < 7
      norm_num)
  exact ⟨h.1, h.2 0 Nat.one_pos⟩

/-- C8: with a dimension-correct, fully in-range point, each analytic
chi-squared p-value is computed exactly when its degrees-of-freedom is
strictly positive; a non-positive degrees-of-freedom does not make the call
fail — that p-value is just omitted and the pair
`(simulated p-value, full-dof analytic p-value)` is still returned. -/
theorem gof_dof_guard (lp : LogPosterior) (env : GofEnv) (values : List ℝ)
    (store : String → ℝ)
    (hlen : lp.parameter_descriptions.length = values.length)
    (hgood : ∀ i (hv : i < values.length) (hd : i < lp.parameter_descriptions.length),
      ¬(values.get ⟨i, hv⟩ < (lp.parameter_descriptions.get ⟨i, hd⟩).min ∨
        (lp.parameter_descriptions.get ⟨i, hd⟩).max < values.get ⟨i, hv⟩)) :
    ((0 : ℝ) < (env.n_obs : ℝ) - (lp.parameter_descriptions.length : ℝ) →
      (lp.goodness_of_fit env values store).p_full
        = some (env.chisqQ (env.chisqQinv env.p_sim (env.n_obs : ℝ))
            ((env.n_obs : ℝ) - (lp.parameter_descriptions.length : ℝ)))) ∧
    ((env.n_obs : ℝ) - (lp.parameter_descriptions.length : ℝ) ≤ 0 →
      (lp.goodness_of_fit env values store).p_full = none) ∧
    ((0 : ℝ) < (env.n_obs : ℝ)
        - (((lp.parameter_descriptions.filter fun d => ! d.nuisance).length : ℕ) : ℝ) →
      (lp.goodness_of_fit env values store).p_scan
        = some (env.chisqQ (env.chisqQinv env.p_sim (env.n_obs : ℝ))
            ((env.n_obs : ℝ)
              - (((lp.parameter_descriptions.filter fun d => ! d.nuisance).length : ℕ) : ℝ)))) ∧
    ((env.n_obs : ℝ)
        - (((lp.parameter_descriptions.filter fun d => ! d.nuisance).length : ℕ) : ℝ) ≤ 0 →
      (lp.goodness_of_fit env values store).p_scan = none) ∧
    (lp.goodness_of_fit env values store).ret
      = .ok (env.p_sim, ((lp.goodness_of_fit env values store).p_full).getD 0) := by
  have hnone := gofSetParams_ok lp.parameter_descriptions values store hgood
  have hgof : lp.goodness_of_fit env values store
      = ⟨(gofSetParams lp.parameter_descriptions values store).1,
          (if 0 < (env.n_obs : ℝ) - (lp.parameter_descriptions.length : ℝ) then
            some (env.chisqQ (env.chisqQinv env.p_sim (env.n_obs : ℝ))
              ((env.n_obs : ℝ) - (lp.parameter_descriptions.length : ℝ))) else none),
          (if 0 < (env.n_obs : ℝ)
              - (((lp.parameter_descriptions.filter fun d => ! d.nuisance).length : ℕ) : ℝ) then
            some (env.chisqQ (env.chisqQinv env.p_sim (env.n_obs : ℝ))
              ((env.n_obs : ℝ)
                - (((lp.parameter_descriptions.filter fun d => ! d.nuisance).length : ℕ) : ℝ)))
          else none),
          .ok (env.p_sim,
            (if 0 < (env.n_obs : ℝ) - (lp.parameter_descriptions.length : ℝ) then
              some (env.chisqQ (env.chisqQinv env.p_sim (env.n_obs : ℝ))
                ((env.n_obs : ℝ) - (lp.parameter_descriptions.length : ℝ))) else none).getD 0)⟩ := by
    simp only [LogPosterior.goodness_of_fit]
    rw [if_neg (not_not_intro hlen)]
    rcases hgs : gofSetParams lp.parameter_descriptions values store with ⟨s', r⟩
    rw [hgs] at hnone
    simp only at hnone
    subst hnone
    rfl
  rw [hgof]
  refine ⟨?_, ?_, ?_, ?_, rfl⟩
  · intro hpos
    simp only [if_pos hpos]
  · intro hle
    simp only [if_neg (not_lt.mpr hle)]
  · intro hpos
    simp only [if_pos hpos]
  · intro hle
    simp only [if_neg (not_lt.mpr hle)]

/-- C8 witness: `lpGof` with zero observations — both degrees-of-freedom are
non-positive, both analytic p-values are omitted, and the pair
`(0.3, 0)` is still returned. -/
theorem gof_dof_guard_witness :
    (lpGof.goodness_of_fit gofEnvEx [0.5, 0.5] (fun _ => 0)).p_full = none ∧
    (lpGof.goodness_of_fit gofEnvEx [0.5, 0.5] (fun _ => 0)).p_scan = none ∧
    (lpGof.goodness_of_fit gofEnvEx [0.5, 0.5] (fun _ => 0)).ret = .ok (0.3, 0) := by
  have hgood : ∀ i (hv : i < ([0.5, 0.5] : List ℝ).length)
      (hd : i < lpGof.parameter_descriptions.length),
      ¬(([0.5, 0.5] : List ℝ).get ⟨i, hv⟩ < (lpGof.parameter_descriptions.get ⟨i, hd⟩).min ∨
        (lpGof.parameter_descriptions.get ⟨i, hd⟩).max < ([0.5, 0.5] : List ℝ).get ⟨i, hv⟩) := by
    intro i hv hd
    match i, hv with
    | 0, _ =>
      show ¬((0.5 : ℝ) < 0 ∨ (1 : ℝ) < 0.5)
      norm_num
    | 1, _ =>
      show ¬((0.5 : ℝ) < -1 ∨ (1 : ℝ) < 0.5)
      norm_num
  have h := gof_dof_guard lpGof gofEnvEx [0.5, 0.5] (fun _ => 0) (by decide) hgood
  have hfull : (lpGof.goodness_of_fit gofEnvEx [0.5, 0.5] (fun _ => 0)).p_full = none := by
    refine h.2.1 ?_
    show ((0 : ℕ) : ℝ) - ((2 : ℕ) : ℝ) ≤ 0
    norm_num
  have hscan : (lpGof.goodness_of_fit gofEnvEx [0.5, 0.5] (fun _ => 0)).p_scan = none := by
    refine h.2.2.2.1 ?_
    show ((0 : ℕ) : ℝ) - ((1 : ℕ) : ℝ) ≤ 0
    norm_num
  refine ⟨hfull, hscan, ?_⟩
  rw [h.2.2.2.2, hfull]
  rfl

/-! ### LogPosterior::optimize (log-posterior.cc lines 533–621, claim C6) -/

/-- The outcome of the GSL Nelder-Mead run (the external minimizer loop,
log-posterior.cc lines 541–600): the final simplex point `minim->x`
(copied into `parameters_at_mode`) and the final function value
`minim->fval` (`mode`). -/
structure MinimizerOutcome where
  x : List ℝ
  fval : ℝ

/-- `LogPosterior::optimize`: check the initial guess's dimension, record
`initial_minimum = negative_log_posterior(initial_guess)`, run the minimizer,
then compare: if `mode >= initial_minimum` (no improvement) return the
initial guess paired with `-initial_minimum` (after a warning), otherwise
return `parameters_at_mode` paired with `-mode`.  The objective
`negative_log_posterior` (which evaluates the external likelihood) and the
GSL minimizer are passed as function parameters. -/
noncomputable def LogPosterior.optimize (lp : LogPosterior)
    (negative_log_posterior : List ℝ → ℝ) (minimizer : List ℝ → MinimizerOutcome)
    (initial_guess : List ℝ) : Except EosError (List ℝ × ℝ) :=
  if lp.parameter_descriptions.length ≠ initial_guess.length then
    .error (.internalError "LogPosterior::optimize: starting point has the wrong dimension")
  else
    let initial_minimum := negative_log_posterior initial_guess
    let minim := minimizer initial_guess
    if initial_minimum ≤ minim.fval then .ok (initial_guess, -initial_minimum)
    else .ok (minim.x, -minim.fval)

/-- C6: with a dimension-correct initial guess, `optimize` compares the
minimizer's final value to the negated log-posterior at the initial guess:
no improvement (`found >= initial`) returns the initial guess unchanged with
the negation of the initial value; improvement returns the found point with
the negation of the found minimum. -/
theorem optimize_spec (lp : LogPosterior) (negative_log_posterior : List ℝ → ℝ)
    (minimizer : List ℝ → MinimizerOutcome) (initial_guess : List ℝ)
    (hdim : lp.parameter_descriptions.length = initial_guess.length) :
    (negative_log_posterior initial_guess ≤ (minimizer initial_guess).fval →
      lp.optimize negative_log_posterior minimizer initial_guess
        = .ok (initial_guess, -(negative_log_posterior initial_guess))) ∧
    ((minimizer initial_guess).fval < negative_log_posterior initial_guess →
      lp.optimize negative_log_posterior minimizer initial_guess
        = .ok ((minimizer initial_guess).x, -(minimizer initial_guess).fval)) := by
  constructor
  · intro hge
    simp only [LogPosterior.optimize]
    rw [if_neg (not_not_intro hdim), if_pos hge]
  · intro hlt
    simp only [LogPosterior.optimize]
    rw [if_neg (not_not_intro hdim), if_neg (not_le.mpr hlt)]

/-- C6 witness: on a one-parameter posterior with objective constantly `5`
and a minimizer reporting the point `[1]` with value `3 < 5`, `optimize`
returns `([1], -3)`; with a minimizer reporting value `7 ≥ 5` it returns the
initial guess `[0]` with `-5`. -/
theorem optimize_spec_witness :
    lpGof.optimize (fun _ => 5) (fun _ => ⟨[1], 3⟩) [0, 0] = .ok ([1], -3) ∧
    lpGof.optimize (fun _ => 5) (fun _ => ⟨[1], 7⟩) [0, 0] = .ok ([0, 0], -5) := by
  constructor
  · exact (optimize_spec lpGof (fun _ => 5) (fun _ => ⟨[1], 3⟩) [0, 0] (by decide)).2
      (by norm_num)
  · exact (optimize_spec lpGof (fun _ => 5) (fun _ => ⟨[1], 7⟩) [0, 0] (by decide)).1
      (by norm_num)

/-! ### proposal_covariance (log-posterior.cc lines 667–694, claim C9) -/

/-- `LogPosterior::log_prior(const std::string &)` (log-posterior.cc lines
474–490): scan every owned prior's descriptions; on a name match remember
that prior (no break, so the last match wins); return it, or null when none
matches. -/
def LogPosterior.log_prior_for (lp : LogPosterior) (name : String) : Option Prior :=
  lp.priors.foldl
    (fun acc p => if p.descs.any fun d => d.name == name then some p else acc) none

/-- `log_posterior.log_prior(def.parameter->name())->variance()` at
`proposal_covariance`'s call site; dereferencing the null pointer returned
for an unknown name would be undefined behaviour in C++ and is mapped to `0`
(unreachable for a posterior that owns a prior for every description). -/
def LogPosterior.priorVariance (lp : LogPosterior) (name : String) : ℝ :=
  ((lp.log_prior_for name).map Prior.variance).getD 0

/-- The body of the diagonal loop in `proposal_covariance`: the prior's
variance, divided by `power_of<2>(scale_reduction)` unless the parameter is a
nuisance parameter and `scale_nuisance` is false. -/
noncomputable def diagEntry (lp : LogPosterior) (scale_reduction : ℝ) (scale_nuisance : Bool)
    (d : ParamDesc) : ℝ :=
  if ! d.nuisance || scale_nuisance then lp.priorVariance d.name / scale_reduction ^ 2
  else lp.priorVariance d.name

/-- The loop of `proposal_covariance` (lines 678–691): walk the descriptions
with running index `par`, writing `covariance[par + npar * par]`. -/
noncomputable def setDiag (lp : LogPosterior) (sr : ℝ) (sn : Bool) (npar : ℕ) :
    ℕ → List ParamDesc → List ℝ → List ℝ
  | _, [], cov => cov
  | par, d :: ds, cov =>
    setDiag lp sr sn npar (par + 1) ds (cov.set (par + npar * par) (diagEntry lp sr sn d))

/-- `proposal_covariance` (log-posterior.cc lines 667–694): a flat
`npar * npar` vector initialised to zero, whose diagonal entries are then set
from the per-parameter prior variances. -/
noncomputable def proposal_covariance (lp : LogPosterior) (scale_reduction : ℝ)
    (scale_nuisance : Bool) : List ℝ :=
  setDiag lp scale_reduction scale_nuisance lp.parameter_descriptions.length
    0 lp.parameter_descriptions
    (List.replicate (lp.parameter_descriptions.length * lp.parameter_descriptions.length) 0)

/-- Two diagonal flat indices agree only for the same row. -/
theorem diag_index_inj (npar i j : ℕ) (h : i + npar * i = j + npar * j) : i = j := by
  have h' : i * (npar + 1) = j * (npar + 1) := by
    have hi : i * (npar + 1) = i + npar * i := by ring
    have hj : j * (npar + 1) = j + npar * j := by ring
    rw [hi, hj, h]
  exact Nat.eq_of_mul_eq_mul_right (Nat.succ_pos npar) h'

/-- An off-diagonal flat index is never a diagonal flat index. -/
theorem offdiag_index_ne (npar i j k : ℕ) (hi : i < npar) (_hj : j < npar) (hk : k < npar)
    (hij : i ≠ j) : i + npar * j ≠ k + npar * k := by
  intro h
  have hnpos : 0 < npar := by omega
  have hmod : (i + npar * j) % npar = i := by
    rw [Nat.add_mul_mod_self_left, Nat.mod_eq_of_lt hi]
  have hmod' : (k + npar * k) % npar = k := by
    rw [Nat.add_mul_mod_self_left, Nat.mod_eq_of_lt hk]
  have hdiv : (i + npar * j) / npar = j := by
    rw [Nat.add_mul_div_left _ _ hnpos, Nat.div_eq_of_lt hi, Nat.zero_add]
  have hdiv' : (k + npar * k) / npar = k := by
    rw [Nat.add_mul_div_left _ _ hnpos, Nat.div_eq_of_lt hk, Nat.zero_add]
  apply hij
  have h1 : i = k := by rw [← hmod, ← hmod', h]
  have h2 : j = k := by rw [← hdiv, ← hdiv', h]
  rw [h1, h2]

/-- Flat indices with both coordinates below `npar` are in range. -/
theorem flat_index_lt (npar i j : ℕ) (hi : i < npar) (hj : j < npar) :
    i + npar * j < npar * npar := by
  have h1 : i + npar * j < npar * (j + 1) := by
    have : npar * (j + 1) = npar * j + npar := by ring
    omega
  have h2 : npar * (j + 1) ≤ npar * npar := Nat.mul_le_mul_left npar (by omega)
  omega

theorem setDiag_length (lp : LogPosterior) (sr : ℝ) (sn : Bool) (npar : ℕ)
    (ds : List ParamDesc) (par : ℕ) (cov : List ℝ) :
    (setDiag lp sr sn npar par ds cov).length = cov.length := by
  induction ds generalizing par cov with
  | nil => rfl
  | cons d ds ih =>
    rw [setDiag, ih, List.length_set]

/-- The diagonal loop leaves every index it never writes untouched. -/
theorem setDiag_getElem_other (lp : LogPosterior) (sr : ℝ) (sn : Bool) (npar : ℕ)
    (ds : List ParamDesc) (par : ℕ) (cov : List ℝ) (k : ℕ)
    (hk : ∀ m, par ≤ m → m < par + ds.length → k ≠ m + npar * m) :
    (setDiag lp sr sn npar par ds cov)[k]? = cov[k]? := by
  induction ds generalizing par cov with
  | nil => rfl
  | cons d ds ih =>
    rw [setDiag]
    rw [ih (par + 1) _ fun m h1 h2 => hk m (by omega) (by rw [List.length_cons]; omega)]
    exact List.getElem?_set_ne
      (fun hEq => hk par (Nat.le_refl par) (by rw [List.length_cons]; omega) hEq.symm) ..

/-- The diagonal loop writes row `i`'s entry from the description at offset
`i - par`. -/
theorem setDiag_getElem_diag (lp : LogPosterior) (sr : ℝ) (sn : Bool) (npar : ℕ)
    (ds : List ParamDesc) (par : ℕ) (cov : List ℝ) (i : ℕ)
    (hpar : par ≤ i) (hlt : i - par < ds.length) (hbound : i + npar * i < cov.length) :
    (setDiag lp sr sn npar par ds cov)[i + npar * i]?
      = some (diagEntry lp sr sn (ds.getD (i - par) default)) := by
  induction ds generalizing par cov with
  | nil => exact absurd hlt (Nat.not_lt_zero _)
  | cons d ds ih =>
    rw [setDiag]
    rcases Nat.eq_or_lt_of_le hpar with hEq | hlt'
    · subst hEq
      rw [setDiag_getElem_other lp sr sn npar ds (par + 1) _ (par + npar * par)
        (fun m h1 _ hcontra => by
          have hpm := diag_index_inj npar par m hcontra
          omega)]
      rw [Nat.sub_self, List.getD_cons_zero]
      exact List.getElem?_set_self hbound
    · have hk : i - par = (i - (par + 1)) + 1 := by omega
      rw [hk, List.getD_cons_succ]
      have hlt2 : i - par < ds.length + 1 := by rw [List.length_cons] at hlt; exact hlt
      exact ih (par + 1) _ hlt' (by omega) (by rw [List.length_set]; exact hbound)

/-- C9: `proposal_covariance` returns an `npar × npar` flat matrix whose
off-diagonal entries are all zero and whose `i`-th diagonal entry is the
`i`-th parameter's prior variance divided by `scale_reduction²`, except that
a nuisance parameter's entry is left undivided when `scale_nuisance` is
false. -/
theorem proposal_covariance_spec (lp : LogPosterior) (scale_reduction : ℝ)
    (scale_nuisance : Bool) (i j : ℕ)
    (hi : i < lp.parameter_descriptions.length)
    (hj : j < lp.parameter_descriptions.length) :
    (proposal_covariance lp scale_reduction scale_nuisance).length
      = lp.parameter_descriptions.length * lp.parameter_descriptions.length ∧
    (i ≠ j →
      (proposal_covariance lp scale_reduction scale_nuisance)[i
        + lp.parameter_descriptions.length * j]? = some 0) ∧
    (proposal_covariance lp scale_reduction scale_nuisance)[i
        + lp.parameter_descriptions.length * i]?
      = some (if ! (lp.parameter_descriptions.get ⟨i, hi⟩).nuisance || scale_nuisance then
          lp.priorVariance (lp.parameter_descriptions.get ⟨i, hi⟩).name / scale_reduction ^ 2
        else lp.priorVariance (lp.parameter_descriptions.get ⟨i, hi⟩).name) := by
  refine ⟨?_, ?_, ?_⟩
  · rw [proposal_covariance, setDiag_length, List.length_replicate]
  · intro hij
    rw [proposal_covariance,
      setDiag_getElem_other lp scale_reduction scale_nuisance
        lp.parameter_descriptions.length lp.parameter_descriptions 0 _ _
        (fun m h1 h2 => offdiag_index_ne lp.parameter_descriptions.length i j m hi hj
          (by omega) hij)]
    exact List.getElem?_replicate_of_lt
      (flat_index_lt lp.parameter_descriptions.length i j hi hj)
  · have hdiag := setDiag_getElem_diag lp scale_reduction scale_nuisance
      lp.parameter_descriptions.length lp.parameter_descriptions 0
      (List.replicate
        (lp.parameter_descriptions.length * lp.parameter_descriptions.length) 0) i
      (Nat.zero_le i) (by rw [Nat.sub_zero]; exact hi)
      (by rw [List.length_replicate]
          exact flat_index_lt lp.parameter_descriptions.length i i hi hi)
    rw [proposal_covariance, hdiag, Nat.sub_zero,
      List.getD_eq_getElem lp.parameter_descriptions default hi]
    rfl

/-- A nuisance-parameter prior with variance 4 for the C9 witness. -/
def priorVarN : Prior := ⟨[⟨"n0", 0, 1, false⟩], true, 4⟩

/-- A scan-parameter prior with variance 9 for the C9 witness. -/
def priorVarS : Prior := ⟨[⟨"s1", 0, 1, false⟩], true, 9⟩

/-- A posterior with one nuisance parameter (`"n0"`, prior variance 4) and
one scan parameter (`"s1"`, prior variance 9). -/
def lpCov : LogPosterior :=
  ⟨[⟨"n0", 0, 1, true⟩, ⟨"s1", 0, 1, false⟩], {"n0", "s1"}, [priorVarN, priorVarS], 2⟩

/-- C9 witness: on `lpCov` with `scale_reduction = 2`, `scale_nuisance =
false`, the flat 2×2 proposal covariance has diagonal `[4, 9/4]` and zero
off-diagonal entries. -/
theorem proposal_covariance_witness :
    (proposal_covariance lpCov 2 false).length = 4 ∧
    (proposal_covariance lpCov 2 false)[0]? = some 4 ∧
    (proposal_covariance lpCov 2 false)[3]? = some (9 / 4) ∧
    (proposal_covariance lpCov 2 false)[1]? = some 0 ∧
    (proposal_covariance lpCov 2 false)[2]? = some 0 := by
  have h0 := proposal_covariance_spec lpCov 2 false 0 1 (by decide) (by decide)
  have h1 := proposal_covariance_spec lpCov 2 false 1 0 (by decide) (by decide)
  refine ⟨h0.1, ?_, ?_, ?_, ?_⟩
  · have hd := h0.2.2
    norm_num [lpCov, LogPosterior.priorVariance, LogPosterior.log_prior_for,
      priorVarN, priorVarS] at hd
    exact hd
  · have hd := h1.2.2
    norm_num [lpCov, LogPosterior.priorVariance, LogPosterior.log_prior_for,
      priorVarN, priorVarS] at hd
    exact hd
  · have hd := h1.2.1 (by decide)
    norm_num [lpCov] at hd
    exact hd
  · have hd := h0.2.1 (by decide)
    norm_num [lpCov] at hd
    exact hd

end EosSpec
